import Mathlib

/-!
Verification of the rust-blackjack simulator (src/main.rs) against its
natural-language specification.  The Rust data model and operations are
shallowly embedded: enums become inductive types, `Vec<Card>` becomes
`List Card`, `Option<Card>` becomes `Option Card`, and a Rust panic
(`unwrap` on `None`, failing `try_into`) is modelled as an `Option`
result of `none`.
-/

namespace Blackjack

/-- Card ranks, in the source's declaration order (ACE first, KING last). -/
inductive Rank
  | ACE | TWO | THREE | FOUR | FIVE | SIX | SEVEN | EIGHT | NINE | TEN
  | JACK | QUEEN | KING
  deriving DecidableEq, Repr, Fintype

/-- Numeric value of a rank: ACE is 1, JACK 11, QUEEN 12, KING 13
(`Rank::as_number`). -/
def Rank.as_number : Rank → Nat
  | .ACE => 1
  | .TWO => 2
  | .THREE => 3
  | .FOUR => 4
  | .FIVE => 5
  | .SIX => 6
  | .SEVEN => 7
  | .EIGHT => 8
  | .NINE => 9
  | .TEN => 10
  | .JACK => 11
  | .QUEEN => 12
  | .KING => 13

/-- Full word form of a rank (`Rank::as_string`). -/
def Rank.as_string : Rank → String
  | .ACE => "ACE"
  | .TWO => "TWO"
  | .THREE => "THREE"
  | .FOUR => "FOUR"
  | .FIVE => "FIVE"
  | .SIX => "SIX"
  | .SEVEN => "SEVEN"
  | .EIGHT => "EIGHT"
  | .NINE => "NINE"
  | .TEN => "TEN"
  | .JACK => "JACK"
  | .QUEEN => "QUEEN"
  | .KING => "KING"

/-- Single-character display glyph of a rank (`Rank::as_character`). -/
def Rank.as_character : Rank → String
  | .ACE => "A"
  | .TWO => "2"
  | .THREE => "3"
  | .FOUR => "4"
  | .FIVE => "5"
  | .SIX => "6"
  | .SEVEN => "7"
  | .EIGHT => "8"
  | .NINE => "9"
  | .TEN => "0"
  | .JACK => "J"
  | .QUEEN => "Q"
  | .KING => "K"

/-- Iteration order over ranks, ACE to KING (`Rank::iterator`). -/
def Rank.iterator : List Rank :=
  [.ACE, .TWO, .THREE, .FOUR, .FIVE, .SIX, .SEVEN, .EIGHT, .NINE, .TEN,
   .JACK, .QUEEN, .KING]

/-- Card suits, in the source's declaration order. -/
inductive Suit
  | HEARTS | DIAMONDS | CLUBS | SPADES
  deriving DecidableEq, Repr, Fintype

/-- Iteration order over suits, HEARTS to SPADES (`Suit::iterator`). -/
def Suit.iterator : List Suit := [.HEARTS, .DIAMONDS, .CLUBS, .SPADES]

/-- A playing card: a rank paired with a suit (`struct Card`).
Equality is componentwise, matching the derived `PartialEq`. -/
structure Card where
  rank : Rank
  suit : Suit
  deriving DecidableEq, Repr, Fintype

/-- Card constructor (`Card::new`). -/
def Card.new (rank : Rank) (suit : Suit) : Card := ⟨rank, suit⟩

/-- A deck is its ordered card sequence (`struct Deck { cards: Cards }`,
where `Cards` wraps `Vec<Card>`).  The `Vec` is embedded as a `List`
with the push end at the tail. -/
abbrev Deck := List Card

/-- Construction of the full deck (`Deck::new`): for each suit in
iteration order, for each rank in iteration order, push
`Card::new(rank, suit)` onto the card vector, starting from empty. -/
def Deck.new : Deck :=
  Suit.iterator.foldl
    (fun cards s => Rank.iterator.foldl (fun cards r => cards ++ [Card.new r s]) cards)
    []

/-- Drawing a card (`Deck::draw_card`): `Vec::pop`, which removes and
returns the last element, or returns `None` on an empty vector.  The
result pairs the popped card with the remaining deck. -/
def Deck.draw_card (d : Deck) : Option Card × Deck :=
  match d.getLast? with
  | none => (none, d)
  | some c => (some c, d.dropLast)

/-- Card count of the deck (`Deck::number_of_cards`): the length, converted
from `usize` to `u8` by `try_into().unwrap()`.  The conversion panics when
the length exceeds 255; the panic is modelled as `none`. -/
def Deck.number_of_cards (d : Deck) : Option Nat :=
  if d.length ≤ 255 then some d.length else none

/-- Iterated drawing: draw `n` times in sequence, collecting the drawn
results in order together with the remaining deck.  This models the
repeated `deck.draw_card()` calls a caller makes. -/
def drawMany : Nat → Deck → List (Option Card) × Deck
  | 0, d => ([], d)
  | n + 1, d =>
      match d.draw_card with
      | (c, d₁) =>
          match drawMany n d₁ with
          | (cs, d₂) => (c :: cs, d₂)

/-- Swap of the elements at two in-bounds positions of a list; used by
the Fisher–Yates shuffle model.  Out-of-bounds indices leave the list
unchanged (Fisher–Yates only ever swaps in-bounds positions). -/
def swapL (l : List α) (i j : Nat) : List α :=
  if h : i < l.length ∧ j < l.length then
    (l.set i (l.get ⟨j, h.2⟩)).set j (l.get ⟨i, h.1⟩)
  else l

/-- Modelled from the spec: the loop of the Fisher–Yates / random-swap
shuffle that `Deck::shuffle` delegates to via the rand crate's
`SliceRandom::shuffle` (library code outside this repository's
sources).  Working down from the highest index, each position `i + 1`
is swapped with a position `j ≤ i + 1` chosen by the random source; the
source is embedded as a list of naturals, one consumed per iteration
and reduced modulo the number of candidate positions. -/
def fyAux : Nat → List Nat → List Card → List Card
  | 0, _, l => l
  | i + 1, rng, l => fyAux i rng.tail (swapL l (i + 1) (rng.headD 0 % (i + 2)))

/-- Modelled from the spec: `Deck::shuffle` permutes the card vector in
place with an unbiased shuffle (Fisher–Yates / random-swap) driven by a
uniform random source, here an explicit list of naturals. -/
def Deck.shuffle (rng : List Nat) (d : Deck) : Deck :=
  fyAux (d.length - 1) rng d

/-- A player or the dealer, holding a hand of cards (`struct Player`). -/
structure Player where
  hand : List Card
  deriving DecidableEq, Repr

/-- Creation of a player with an empty hand (`Player::new`). -/
def Player.new : Player := ⟨[]⟩

/-- Adding a drawn card to the hand (`Player::add_card`):
`self.hand.push(card.unwrap())`.  The `unwrap` panics on `None`,
modelled as a `none` result; on `Some c` the card is pushed onto the
end of the hand. -/
def Player.add_card (p : Player) (card : Option Card) : Option Player :=
  match card with
  | none => none
  | some c => some ⟨p.hand ++ [c]⟩

/-- One step of the summing pass of `Player::get_hand_value`: the
accumulator carries the running `value` and the `aces` counter.  A card
of numeric rank at least 10 contributes 10; an ACE (numeric rank 1)
contributes 11 and bumps the ace counter; any other card contributes
its numeric rank.  In the source `value` is a `u8`, so the addition
`value += card_value` is reduced modulo 256, as a release build wraps
it; a debug build panics on overflow instead, which `scoreStepChecked`
models. -/
def scoreStep (acc : Nat × Nat) (card : Card) : Nat × Nat :=
  let card_value := card.rank.as_number
  if card_value ≥ 10 then ((acc.1 + 10) % 256, acc.2)
  else if card_value = 1 then ((acc.1 + 11) % 256, acc.2 + 1)
  else ((acc.1 + card_value) % 256, acc.2)

/-- Debug-build semantics of the summing step: the `u8` addition
`value += card_value` panics when the sum exceeds 255, modelled as
`none`. -/
def scoreStepChecked (acc : Nat × Nat) (card : Card) : Option (Nat × Nat) :=
  let card_value := card.rank.as_number
  if card_value ≥ 10 then
    if acc.1 + 10 ≤ 255 then some (acc.1 + 10, acc.2) else none
  else if card_value = 1 then
    if acc.1 + 11 ≤ 255 then some (acc.1 + 11, acc.2 + 1) else none
  else
    if acc.1 + card_value ≤ 255 then some (acc.1 + card_value, acc.2) else none

/-- The reduction loop of `Player::get_hand_value`:
`while value > 21 && aces > 0 { value -= 10; aces -= 1 }`.
The loop terminates because `aces` strictly decreases, and the `u8`
subtraction `value -= 10` is exact because the guard gives
`value > 21`, so it never underflows or panics. -/
def reduceAces (value : Nat) : Nat → Nat
  | 0 => value
  | aces + 1 => if value > 21 then reduceAces (value - 10) aces else value

/-- Hand scoring (`Player::get_hand_value`): sum the per-card scoring
values in the `u8` accumulator while counting aces, then run the ace
reduction loop.  This is the release-build (wrapping) semantics of the
`u8` arithmetic; `Player.get_hand_value_checked_mut` gives the
debug-build (panicking) semantics. -/
def Player.get_hand_value (p : Player) : Nat :=
  match p.hand.foldl scoreStep (0, 0) with
  | (value, aces) => reduceAces value aces

/-- State-passing embedding of `Player::get_hand_value`, which takes
`&mut Player` in the source: the body only reads `self.hand`, so the
resulting player state is the input state, returned alongside the
value (release-build semantics of the `u8` accumulator). -/
def Player.get_hand_value_mut (p : Player) : Nat × Player :=
  match p.hand.foldl scoreStep (0, 0) with
  | (value, aces) => (reduceAces value aces, p)

/-- State-passing embedding of `Player::get_hand_value` under
debug-build semantics: the summing pass panics (modelled as `none`)
when the `u8` accumulator overflows; otherwise the value and the
unchanged player state are returned. -/
def Player.get_hand_value_checked_mut (p : Player) : Option (Nat × Player) :=
  match p.hand.foldl (fun acc c => acc.bind (fun va => scoreStepChecked va c))
      (some (0, 0)) with
  | none => none
  | some (value, aces) => some (reduceAces value aces, p)

/-- The winner declaration in `main`: the dealer wins exactly when the
dealer's hand value is strictly greater than the player's; otherwise
the player wins. -/
inductive Winner
  | dealer | player
  deriving DecidableEq, Repr

/-- Winner determination from the two computed hand values, embedding
`if dealer.get_hand_value() > player.get_hand_value()` of `main`. -/
def declare_winner (dealerValue playerValue : Nat) : Winner :=
  if dealerValue > playerValue then .dealer else .player

/-- Scoring value of a single card as the specification words it: a card
whose rank number is 10 or more contributes 10, an ACE initially
contributes 11, and any other card contributes its rank number. -/
def specCardScore (c : Card) : Nat :=
  if c.rank = Rank.ACE then 11
  else if 10 ≤ c.rank.as_number then 10
  else c.rank.as_number

/-- Number of aces in a hand, as the specification counts them. -/
def specAceCount (h : List Card) : Nat :=
  (h.filter (fun c => c.rank = Rank.ACE)).length

/-- Ace-softening reduction as the specification words it: while the
total exceeds 21 and at least one ace has not yet been downgraded,
subtract 10 and decrement the downgradable-ace count. -/
def specReduce (total : Nat) : Nat → Nat
  | 0 => total
  | aces + 1 => if total > 21 then specReduce (total - 10) aces else total

/-- Two-pass hand value as the specification words it: sum the per-card
scoring values, count the aces, then run the reduction loop; the result
is returned uncapped. -/
def spec_hand_value (h : List Card) : Nat :=
  specReduce ((h.map specCardScore).sum) (specAceCount h)

/-- Game states reachable by round orchestration: the deck together
with the hands dealt from it (two in `main`, any number here). -/
structure GameState where
  deck : Deck
  hands : List (List Card)

/-- One orchestration step on a game state: either the deck is shuffled
in place, or a card is drawn from the deck (`draw_card` succeeding) and
appended to one of the hands (`add_card`). -/
inductive Step : GameState → GameState → Prop
  | shuffle (rng : List Nat) (s : GameState) :
      Step s ⟨Deck.shuffle rng s.deck, s.hands⟩
  | deal (s : GameState) (i : Nat) (c : Card) (d₁ : Deck)
      (hdraw : s.deck.draw_card = (some c, d₁)) (hi : i < s.hands.length) :
      Step s ⟨d₁, s.hands.set i (s.hands.get ⟨i, hi⟩ ++ [c])⟩

/-- States reachable from a fresh deck and empty hands by any sequence
of shuffles and deals. -/
inductive Reachable : GameState → Prop
  | init (n : Nat) : Reachable ⟨Deck.new, List.replicate n []⟩
  | step {s t : GameState} : Reachable s → Step s t → Reachable t

/-! Helper lemmas. -/

lemma scoreStep_eq (acc : Nat × Nat) (c : Card) :
    scoreStep acc c =
      ((acc.1 + specCardScore c) % 256,
        acc.2 + if c.rank = Rank.ACE then 1 else 0) := by
  cases c with
  | mk r s => cases r <;> simp [scoreStep, specCardScore, Rank.as_number]

lemma foldl_scoreStep (h : List Card) (v a : Nat) (hv : v ≤ 255) :
    h.foldl scoreStep (v, a) =
      ((v + (h.map specCardScore).sum) % 256, a + specAceCount h) := by
  induction h generalizing v a with
  | nil => simp [specAceCount, Nat.mod_eq_of_lt (by omega : v < 256)]
  | cons c t ih =>
      rw [List.foldl_cons, scoreStep_eq,
        ih ((v + specCardScore c) % 256) _
          (Nat.le_of_lt_succ (Nat.mod_lt _ (by omega)))]
      simp only [Prod.mk.injEq]
      constructor
      · rw [Nat.mod_add_mod, List.map_cons, List.sum_cons, Nat.add_assoc]
      · by_cases hc : c.rank = Rank.ACE <;>
          simp [specAceCount, hc, Nat.add_assoc, Nat.add_comm, Nat.add_left_comm]

lemma reduceAces_eq_specReduce (v a : Nat) : reduceAces v a = specReduce v a := by
  induction a generalizing v with
  | zero => rfl
  | succ a ih => simp [reduceAces, specReduce, ih]

lemma draw_card_concat (d : Deck) (c : Card) (d₁ : Deck)
    (h : d.draw_card = (some c, d₁)) : d = d₁ ++ [c] := by
  rcases List.eq_nil_or_concat d with rfl | ⟨L, b, rfl⟩
  · simp [Deck.draw_card] at h
  · simp [Deck.draw_card, List.getLast?_concat, List.dropLast_concat] at h
    simp [List.concat_eq_append, h.1, h.2]

lemma cons_set_perm (a : α) :
    ∀ (t : List α) (m : Nat) (hm : m < t.length),
      List.Perm (t.get ⟨m, hm⟩ :: t.set m a) (a :: t)
  | [], m, hm => absurd hm (by simp)
  | b :: t, 0, _ => List.Perm.swap a b t
  | b :: t, m + 1, hm =>
      ((List.Perm.swap b _ _).trans
        (((cons_set_perm a t m (by simpa using hm)).cons b).trans
          (List.Perm.swap a b t)))

lemma set_set_swap_perm :
    ∀ (l : List α) (i j : Nat) (hi : i < l.length) (hj : j < l.length),
      List.Perm ((l.set i (l.get ⟨j, hj⟩)).set j (l.get ⟨i, hi⟩)) l
  | [], i, _, hi, _ => absurd hi (by simp)
  | a :: t, 0, 0, _, _ => by simp
  | a :: t, 0, j + 1, _, hj => by
      simpa using cons_set_perm a t j (by simpa using hj)
  | a :: t, i + 1, 0, hi, _ => by
      simpa using cons_set_perm a t i (by simpa using hi)
  | a :: t, i + 1, j + 1, hi, hj => by
      simpa using
        (set_set_swap_perm t i j (by simpa using hi) (by simpa using hj)).cons a

lemma swapL_perm (l : List α) (i j : Nat) : List.Perm (swapL l i j) l := by
  unfold swapL
  split
  · exact set_set_swap_perm ..
  · exact List.Perm.refl l

lemma fyAux_perm : ∀ (i : Nat) (rng : List Nat) (l : List Card),
    List.Perm (fyAux i rng l) l
  | 0, _, l => List.Perm.refl l
  | i + 1, rng, l =>
      (fyAux_perm i rng.tail (swapL l (i + 1) (rng.headD 0 % (i + 2)))).trans
        (swapL_perm ..)

lemma shuffle_perm (rng : List Nat) (d : Deck) :
    List.Perm (Deck.shuffle rng d) d :=
  fyAux_perm ..

lemma flatten_set_perm (c : α) :
    ∀ (hs : List (List α)) (i : Nat) (hi : i < hs.length),
      List.Perm (hs.set i (hs.get ⟨i, hi⟩ ++ [c])).flatten (c :: hs.flatten)
  | [], i, hi => absurd hi (by simp)
  | h :: t, 0, _ => by
      simp [List.append_assoc]
  | h :: t, i + 1, hi => by
      simpa using
        ((flatten_set_perm c t i (by simpa using hi)).append_left h).trans
          (List.perm_middle :
            List.Perm (h ++ c :: t.flatten) (c :: (h ++ t.flatten)))

lemma step_concat_perm {s t : GameState} (hstep : Step s t) :
    List.Perm (t.deck ++ t.hands.flatten) (s.deck ++ s.hands.flatten) := by
  cases hstep with
  | shuffle rng s =>
      exact (shuffle_perm rng s.deck).append_right s.hands.flatten
  | deal s i c d₁ hdraw hi =>
      refine ((flatten_set_perm c s.hands i hi).append_left d₁).trans ?_
      have hdeck : d₁ ++ (c :: s.hands.flatten) = s.deck ++ s.hands.flatten := by
        rw [draw_card_concat s.deck c d₁ hdraw]
        simp
      rw [hdeck]

lemma reachable_concat_perm {s : GameState} (h : Reachable s) :
    List.Perm (s.deck ++ s.hands.flatten) Deck.new := by
  induction h with
  | init n => simp
  | step hr hstep ih => exact (step_concat_perm hstep).trans ih

lemma deck_new_length : Deck.new.length = 52 := by decide

lemma deck_new_nodup : Deck.new.Nodup := by decide

lemma reachable_length {s : GameState} (h : Reachable s) :
    s.deck.length + s.hands.flatten.length = 52 := by
  have hlen := (reachable_concat_perm h).length_eq
  rw [List.length_append, deck_new_length] at hlen
  exact hlen

/-! Claim theorems. -/

/-- C1, counterexample. The claim quantifies over every hand, but the
source accumulates `value` in a `u8`: on the 52-card hand holding the
whole fresh deck the scoring values sum to 380, which overflows, so a
release build wraps the sum to 124 and returns 84 while the two-pass
algorithm on unbounded integers returns 340 (and a debug build panics,
modelled as `none` by the checked embedding). -/
theorem get_hand_value_overflow_counterexample :
    (List.map specCardScore Deck.new).sum = 380 ∧
    spec_hand_value Deck.new = 340 ∧
    Player.get_hand_value ⟨Deck.new⟩ = 84 ∧
    Player.get_hand_value ⟨Deck.new⟩ ≠ spec_hand_value Deck.new ∧
    Player.get_hand_value_checked_mut ⟨Deck.new⟩ = none := by
  decide

/-- C1, amended. For every hand whose per-card scoring values sum to at
most 255 — so the `u8` accumulator does not overflow — `get_hand_value`
returns the result of the two-pass algorithm: each non-ace card
contributes 10 when its rank number is at least 10 and its rank number
otherwise, each ACE initially contributes 11; then while the total
exceeds 21 and a downgradable ace remains, 10 is subtracted and the ace
count decremented; the total is returned uncapped.  In particular
{ACE,KING} scores 21, {ACE,ACE} scores 12, {ACE,ACE,ACE,ACE} scores 14,
{KING,QUEEN,TWO} scores 22, and {FIVE} scores 5. -/
theorem get_hand_value_spec :
    (∀ p : Player, (p.hand.map specCardScore).sum ≤ 255 →
      p.get_hand_value = spec_hand_value p.hand) ∧
    Player.get_hand_value ⟨[Card.new .ACE .HEARTS, Card.new .KING .SPADES]⟩ = 21 ∧
    Player.get_hand_value ⟨[Card.new .ACE .HEARTS, Card.new .ACE .CLUBS]⟩ = 12 ∧
    Player.get_hand_value ⟨[Card.new .ACE .HEARTS, Card.new .ACE .DIAMONDS,
      Card.new .ACE .CLUBS, Card.new .ACE .SPADES]⟩ = 14 ∧
    Player.get_hand_value ⟨[Card.new .KING .HEARTS, Card.new .QUEEN .HEARTS,
      Card.new .TWO .HEARTS]⟩ = 22 ∧
    Player.get_hand_value ⟨[Card.new .FIVE .HEARTS]⟩ = 5 := by
  refine ⟨fun p hp => ?_, by decide, by decide, by decide, by decide, by decide⟩
  unfold Player.get_hand_value spec_hand_value
  rw [foldl_scoreStep p.hand 0 0 (by omega)]
  simp [reduceAces_eq_specReduce]
  rw [Nat.mod_eq_of_lt (by omega : (List.map specCardScore p.hand).sum < 256)]

/-- C1, witness. Instantiation of the amended universal statement at
the hand {ACE,KING}, whose scoring sum 21 fits the accumulator. -/
theorem get_hand_value_spec_witness :
    ((Player.mk [Card.new .ACE .HEARTS,
        Card.new .KING .SPADES]).hand.map specCardScore).sum ≤ 255 ∧
    (Player.mk [Card.new .ACE .HEARTS, Card.new .KING .SPADES]).get_hand_value =
      spec_hand_value (Player.mk [Card.new .ACE .HEARTS,
        Card.new .KING .SPADES]).hand :=
  ⟨by decide, get_hand_value_spec.1 _ (by decide)⟩

/-- C2. Deck construction is deterministic and produces exactly 52 cards,
one per (Rank, Suit) combination, in the fixed nested order (outer loop
over suits HEARTS..SPADES, inner loop over ranks ACE..KING), and
`number_of_cards` on the fresh deck is 52. -/
theorem deck_new_spec :
    Deck.new =
      (Suit.iterator.map (fun s => Rank.iterator.map (fun r => Card.new r s))).flatten ∧
    Deck.new.length = 52 ∧
    (∀ c : Card, Deck.new.count c = 1) ∧
    Deck.number_of_cards Deck.new = some 52 :=
  ⟨by decide, by decide, by decide, by decide⟩

/-- C3. Drawing from a non-empty deck removes and returns the last card,
decreasing the length by exactly one; drawing from an empty deck yields
an absent result (`none`), never an error; and drawing 52 times from a
fresh deck yields 52 present, pairwise-distinct cards, after which the
deck is empty and the 53rd draw is absent. -/
theorem draw_card_spec :
    (∀ d : Deck, d ≠ [] →
      ∃ c : Card, d.draw_card = (some c, d.dropLast) ∧
        d.dropLast.length + 1 = d.length) ∧
    Deck.draw_card [] = (none, []) ∧
    (drawMany 52 Deck.new).1.length = 52 ∧
    ((drawMany 52 Deck.new).1.filterMap id).length = 52 ∧
    ((drawMany 52 Deck.new).1.filterMap id).Nodup ∧
    (drawMany 52 Deck.new).2 = [] ∧
    (Deck.draw_card (drawMany 52 Deck.new).2).1 = none := by
  refine ⟨fun d hd => ?_, by decide, by decide, by decide, by decide, by decide,
    by decide⟩
  rcases (List.eq_nil_or_concat d).resolve_left hd with ⟨L, b, rfl⟩
  exact ⟨b, by simp [Deck.draw_card, List.getLast?_concat, List.dropLast_concat]⟩

/-- C3, witness. Instantiation of the non-empty-deck part of
`draw_card_spec` at the fresh deck. -/
theorem draw_card_spec_witness :
    (Deck.new : Deck) ≠ [] ∧
    ∃ c : Card, Deck.new.draw_card = (some c, Deck.new.dropLast) ∧
      Deck.new.dropLast.length + 1 = Deck.new.length :=
  ⟨by decide, draw_card_spec.1 Deck.new (by decide)⟩

/-- C4. For every deck and every outcome of the random source, the
shuffle leaves the multiset of cards unchanged: the result is a
permutation of the input, the length is unchanged, and every card
occurs exactly as often as before. -/
theorem shuffle_spec : ∀ (rng : List Nat) (d : Deck),
    List.Perm (Deck.shuffle rng d) d ∧
    (Deck.shuffle rng d).length = d.length ∧
    ∀ c : Card, (Deck.shuffle rng d).count c = d.count c := by
  intro rng d
  exact ⟨shuffle_perm rng d, (shuffle_perm rng d).length_eq,
    fun c => (shuffle_perm rng d).count_eq c⟩

/-- C5. The winner declaration is a function of the two hand values
alone: the dealer is declared winner exactly when the dealer's value is
strictly greater than the player's, and in every other case — equality
included, both-bust included — the player is declared winner. -/
theorem declare_winner_spec :
    (∀ dv pv : Nat,
      (declare_winner dv pv = .dealer ↔ pv < dv) ∧
      (declare_winner dv pv = .player ↔ dv ≤ pv)) ∧
    (∀ v : Nat, declare_winner v v = .player) ∧
    (∀ dealer pl : Player,
      declare_winner dealer.get_hand_value pl.get_hand_value = .dealer ↔
        pl.get_hand_value < dealer.get_hand_value) := by
  refine ⟨fun dv pv => ⟨?_, ?_⟩, fun v => ?_, fun dealer pl => ?_⟩ <;>
    simp [declare_winner]

/-- C6. Adding an absent card to a hand is a panic (`unwrap` on `None`),
modelled as the `none` result; adding a present card appends exactly
that card to the end of the hand and changes nothing else. -/
theorem add_card_spec : ∀ (p : Player) (c : Card),
    p.add_card none = none ∧ p.add_card (some c) = some ⟨p.hand ++ [c]⟩ :=
  fun _ _ => ⟨rfl, rfl⟩

/-- C7, counterexample. The claim maps TWO..NINE to the digit one less
than the face number, which would send TWO (face number 2) to "1"; the
source maps TWO to "2". -/
theorem as_character_two_counterexample :
    Rank.TWO.as_number - 1 = 1 ∧
    Rank.TWO.as_character = "2" ∧ Rank.TWO.as_character ≠ "1" := by
  decide

/-- C7, amended. Every rank's display glyph is a single character:
TWO..NINE map to the digit equal to their face number ('2'..'9'), TEN
maps to '0' (not "10"), ACE to 'A', JACK to 'J', QUEEN to 'Q' and KING
to 'K'. -/
theorem as_character_spec :
    Rank.ACE.as_character = "A" ∧
    Rank.TWO.as_character = "2" ∧
    Rank.THREE.as_character = "3" ∧
    Rank.FOUR.as_character = "4" ∧
    Rank.FIVE.as_character = "5" ∧
    Rank.SIX.as_character = "6" ∧
    Rank.SEVEN.as_character = "7" ∧
    Rank.EIGHT.as_character = "8" ∧
    Rank.NINE.as_character = "9" ∧
    Rank.TEN.as_character = "0" ∧
    Rank.JACK.as_character = "J" ∧
    Rank.QUEEN.as_character = "Q" ∧
    Rank.KING.as_character = "K" ∧
    (∀ r : Rank, r.as_character.length = 1) := by
  decide

/-- C8. In every state reachable from a fresh deck and empty hands by
shuffles and deals (each drawn card appended to one hand), the deck
length plus the sum of all hand lengths is 52, and no card appears
twice across the deck and all hands combined. -/
theorem conservation_spec : ∀ s : GameState, Reachable s →
    s.deck.length + (s.hands.map List.length).sum = 52 ∧
    (s.deck ++ s.hands.flatten).Nodup := by
  intro s hs
  refine ⟨?_, ?_⟩
  · have hlen := reachable_length hs
    rw [List.length_flatten] at hlen
    exact hlen
  · exact (reachable_concat_perm hs).nodup_iff.mpr deck_new_nodup

/-- C8, witness. The invariant instantiated at the initial state with
two empty hands, as in `main`. -/
theorem conservation_spec_witness :
    (GameState.mk Deck.new (List.replicate 2 [])).deck.length +
      ((GameState.mk Deck.new (List.replicate 2 [])).hands.map List.length).sum = 52 ∧
    ((GameState.mk Deck.new (List.replicate 2 [])).deck ++
      (GameState.mk Deck.new (List.replicate 2 [])).hands.flatten).Nodup :=
  conservation_spec (GameState.mk Deck.new (List.replicate 2 [])) (Reachable.init 2)

/-- C9. On every reachable state the deck holds at most 52 cards, so the
`usize`-to-`u8` conversion inside `number_of_cards` always succeeds: the
call never panics and returns the deck's length. -/
theorem number_of_cards_safe : ∀ s : GameState, Reachable s →
    s.deck.length ≤ 52 ∧
    Deck.number_of_cards s.deck = some s.deck.length := by
  intro s hs
  have hlen := reachable_length hs
  have hle : s.deck.length ≤ 52 := by omega
  exact ⟨hle, by unfold Deck.number_of_cards; rw [if_pos (by omega)]⟩

/-- C9, witness. Instantiation at the initial state: the fresh deck's
count conversion succeeds with value 52. -/
theorem number_of_cards_safe_witness :
    (GameState.mk Deck.new (List.replicate 2 [])).deck.length ≤ 52 ∧
    Deck.number_of_cards (GameState.mk Deck.new (List.replicate 2 [])).deck =
      some (GameState.mk Deck.new (List.replicate 2 [])).deck.length :=
  number_of_cards_safe (GameState.mk Deck.new (List.replicate 2 [])) (Reachable.init 2)

/-- C10. The scoring function reads the hand but never modifies it,
under both builds of the `u8` arithmetic: in the wrapping
(release-build) state-passing embedding the resulting player state
equals the input, the returned value is the pure hand value, and a
second call on the resulting state returns the same value; and in the
checked (debug-build) embedding, whenever the call returns rather than
panicking, the state is unchanged and a second call returns the
identical result — which is what `main` relies on when it scores each
hand once for display and once for the winner comparison. -/
theorem get_hand_value_frame : ∀ p : Player,
    p.get_hand_value_mut.2 = p ∧
    p.get_hand_value_mut.1 = p.get_hand_value ∧
    p.get_hand_value_mut.2.get_hand_value_mut.1 = p.get_hand_value_mut.1 ∧
    (∀ v q, p.get_hand_value_checked_mut = some (v, q) →
      q = p ∧ q.get_hand_value_checked_mut = some (v, q)) := by
  intro p
  have hsnd : p.get_hand_value_mut.2 = p := by
    unfold Player.get_hand_value_mut
    rcases hf : p.hand.foldl scoreStep (0, 0) with ⟨v, a⟩
    simp
  have hfst : p.get_hand_value_mut.1 = p.get_hand_value := by
    unfold Player.get_hand_value_mut Player.get_hand_value
    rcases hf : p.hand.foldl scoreStep (0, 0) with ⟨v, a⟩
    simp
  have hchk : ∀ v q, p.get_hand_value_checked_mut = some (v, q) →
      q = p ∧ q.get_hand_value_checked_mut = some (v, q) := by
    intro v q heq
    unfold Player.get_hand_value_checked_mut at heq
    rcases hf : p.hand.foldl (fun acc c => acc.bind fun va => scoreStepChecked va c)
        (some (0, 0)) with _ | ⟨val, ac⟩ <;> rw [hf] at heq
    · simp at heq
    · simp only [Option.some.injEq, Prod.mk.injEq] at heq
      obtain ⟨hv, hq⟩ := heq
      subst hq
      refine ⟨rfl, ?_⟩
      unfold Player.get_hand_value_checked_mut
      rw [hf]
      simp [hv]
  exact ⟨hsnd, hfst, by rw [hsnd], hchk⟩

/-- C10, witness. Instantiation of the checked clause at the hand
{ACE,KING}: the call returns value 21 with the player state unchanged,
and repeating it gives the identical result. -/
theorem get_hand_value_frame_witness :
    (Player.mk [Card.new .ACE .HEARTS,
        Card.new .KING .SPADES]).get_hand_value_checked_mut =
      some (21, Player.mk [Card.new .ACE .HEARTS, Card.new .KING .SPADES]) ∧
    (Player.mk [Card.new .ACE .HEARTS, Card.new .KING .SPADES] =
        Player.mk [Card.new .ACE .HEARTS, Card.new .KING .SPADES] ∧
      (Player.mk [Card.new .ACE .HEARTS,
          Card.new .KING .SPADES]).get_hand_value_checked_mut =
        some (21, Player.mk [Card.new .ACE .HEARTS, Card.new .KING .SPADES])) :=
  ⟨by decide,
    (get_hand_value_frame (Player.mk [Card.new .ACE .HEARTS,
      Card.new .KING .SPADES])).2.2.2 21
      (Player.mk [Card.new .ACE .HEARTS, Card.new .KING .SPADES]) (by decide)⟩

end Blackjack
